import Mathlib

/-!
Shallow embedding of the `polymap` crate (`src/lib.rs`): a key-value map
storing heterogeneously typed values in one contiguous byte buffer, with a
first-fit placement allocator over an offset-sorted field table.

Modelling conventions:
* Stored Rust types are drawn from a small closed universe `Ty` covering the
  types used by the crate's own tests: the unsigned integers, a zero-sized
  struct, and the tests' `Dropper` (a `usize` wrapper with drop glue).
  `TypeId` comparison is modelled by decidable equality on `Ty`.
* The data buffer `Vec<u8>` is a `List Nat` of bytes; values are stored
  little-endian via `encodeBytes`/`decodeBytes`, mirroring `ptr::write` /
  `ptr::read` of the integer types on a little-endian machine.
* `HashMap<K, usize>` is an association list with no duplicate keys;
  `mapGet`/`mapInsert`/`mapRemove` mirror `get`/`insert`/`remove`.
* A Rust panic is modelled by `OpResult.fault`; `Fault.typeMismatch` is the
  explicit `panic!` on a `TypeId` mismatch, `Fault.unwrapFail` the panic of
  `.unwrap()` on a failed `fields.binary_search_by(...)`.
* `fields.binary_search_by(|f| f.offset.cmp(&off))` is modelled by a linear
  scan for the matching offset (`findFieldPos`): on the offset-sorted,
  duplicate-free field tables the code maintains, binary search succeeds
  exactly on the fields whose offset is present, which is what the scan
  computes; on an empty table both fail.
-/

/-- Closed universe of stored Rust types used by the crate and its tests. -/
inductive Ty where
  | u8
  | u16
  | u32
  | u64
  | zst
  | dropper
  deriving DecidableEq, Repr

/-- Rust `size_of::<T>()` for the types of the universe (`Dropper` wraps a
`usize`, size 8 on a 64-bit target; the zero-sized struct has size 0). -/
def sizeOfTy : Ty → Nat
  | .u8 => 1
  | .u16 => 2
  | .u32 => 4
  | .u64 => 8
  | .zst => 0
  | .dropper => 8

/-- Rust `align_of::<T>()` for the types of the universe. -/
def alignOfTy : Ty → Nat
  | .u8 => 1
  | .u16 => 2
  | .u32 => 4
  | .u64 => 8
  | .zst => 1
  | .dropper => 8

/-- Rust `needs_drop::<T>()`: only `Dropper` has drop glue. -/
def needsDrop : Ty → Bool
  | .dropper => true
  | _ => false

/-- The `align` helper of `lib.rs`: round `offset` up to a multiple of
`alignment`. -/
def align (offset alignment : Nat) : Nat :=
  match offset % alignment with
  | 0 => offset
  | n => offset + (alignment - n)

/-- Field descriptor (`Field` in the source): offset and size of the region, recorded `TypeId`, and
whether drop glue was recorded (`drop: Option<fn(*const ())>` modelled by its
presence). -/
structure FieldDesc where
  offset : Nat
  size : Nat
  id : Ty
  drop : Bool
  deriving DecidableEq, Repr

/-- The `PolyMap` state: byte buffer, key-to-offset index, and the field
table sorted by offset. -/
structure PolyMap (K : Type) where
  data : List Nat
  field_map : List (K × Nat)
  fields : List FieldDesc
  deriving DecidableEq, Repr

/-- Panic causes distinguished by the model. -/
inductive Fault where
  | typeMismatch
  | unwrapFail
  deriving DecidableEq, Repr

/-- Result of an operation that can panic. -/
inductive OpResult (α : Type) where
  | ok (a : α)
  | fault (f : Fault)
  deriving DecidableEq, Repr

/-- Little-endian byte encoding of a value, `n` bytes long. -/
def encodeBytes (v : Nat) : Nat → List Nat
  | 0 => []
  | n + 1 => v % 256 :: encodeBytes (v / 256) n

/-- Little-endian byte decoding. -/
def decodeBytes : List Nat → Nat
  | [] => 0
  | b :: rest => b % 256 + 256 * decodeBytes rest

/-- The value `ptr::read::<T>` yields at `off` in the buffer. -/
def readVal (data : List Nat) (off : Nat) (T : Ty) : Nat :=
  decodeBytes ((data.drop off).take (sizeOfTy T))

/-- The buffer after `ptr::write::<T>` of `v` at `off`. -/
def writeVal (data : List Nat) (off : Nat) (T : Ty) (v : Nat) : List Nat :=
  data.take off ++ encodeBytes v (sizeOfTy T) ++ data.drop (off + sizeOfTy T)

section MapModel

variable {K : Type} [DecidableEq K]

/-- Model of `HashMap::get`. -/
def mapGet (k : K) : List (K × Nat) → Option Nat
  | [] => none
  | p :: rest => if p.1 = k then some p.2 else mapGet k rest

/-- Model of `HashMap::insert`: replace the binding if the key is present,
otherwise add it. -/
def mapInsert (k : K) (v : Nat) : List (K × Nat) → List (K × Nat)
  | [] => [(k, v)]
  | p :: rest => if p.1 = k then (k, v) :: rest else p :: mapInsert k v rest

/-- Model of `HashMap::remove`: delete the binding of `k`, if any. -/
def mapRemove (k : K) : List (K × Nat) → List (K × Nat)
  | [] => []
  | p :: rest => if p.1 = k then rest else p :: mapRemove k rest

end MapModel

/-- Model of `fields.binary_search_by(|f| f.offset.cmp(&off))` on the sorted
field table: position and descriptor of the field at offset `off`, or `none`
(the code then panics via `.unwrap()`). -/
def findFieldPos (off : Nat) : List FieldDesc → Option (Nat × FieldDesc)
  | [] => none
  | f :: rest =>
    if f.offset = off then some (0, f)
    else (findFieldPos off rest).map (fun p => (p.1 + 1, p.2))

/-- The `(size, alignment)` pair `allocate` computes: zero-sized types get
`(1, 1)`. -/
def allocSizeAlign (T : Ty) : Nat × Nat :=
  match sizeOfTy T with
  | 0 => (1, 1)
  | n => (n, alignOfTy T)

/-- The gap-scanning loop of `allocate`: walk adjacent field pairs `(a, b)`
in offset order; the first pair where the aligned end of `a` leaves room for
`size` bytes before `b.offset` yields `(offset, insertion index)`. -/
def allocScan (size alignment : Nat) : List FieldDesc → Option (Nat × Nat)
  | a :: b :: rest =>
    let off := align (a.offset + a.size) alignment
    if off + size ≤ b.offset then some (off, 1)
    else (allocScan size alignment (b :: rest)).map (fun p => (p.1, p.2 + 1))
  | _ => none

/-- Offset and field-table insertion index chosen by `allocate`: offset 0 if
the table is empty or `size` fits before the first field; else the first
interior gap found by `allocScan`; else after the last field. -/
def allocPos (size alignment : Nat) : List FieldDesc → Nat × Nat
  | [] => (0, 0)
  | f0 :: rest =>
    if size ≤ f0.offset then (0, 0)
    else
      match allocScan size alignment (f0 :: rest) with
      | some p => p
      | none =>
        let last := (f0 :: rest).getLast (List.cons_ne_nil f0 rest)
        (align (last.offset + last.size) alignment, (f0 :: rest).length)

namespace PolyMap

variable {K : Type} [DecidableEq K]

/-- Model of `PolyMap::new` (and of `with_capacity`, whose capacity hints
have no observable effect in the model). -/
def new (K : Type) : PolyMap K := ⟨[], [], []⟩

/-- Model of `PolyMap::len`. -/
def len (s : PolyMap K) : Nat := s.fields.length

/-- Model of `PolyMap::data_size`. -/
def data_size (s : PolyMap K) : Nat := s.data.length

/-- Model of `PolyMap::contains_key`. -/
def contains_key (s : PolyMap K) (k : K) : Bool :=
  (mapGet k s.field_map).isSome

/-- Model of the private `PolyMap::get_field`: look the key up in the index,
then find its field by binary search, panicking (`unwrapFail`) if the offset
is missing from the field table. -/
def getField (s : PolyMap K) (k : K) : OpResult (Option FieldDesc) :=
  match mapGet k s.field_map with
  | none => .ok none
  | some off =>
    match findFieldPos off s.fields with
    | some p => .ok (some p.2)
    | none => .fault .unwrapFail

/-- Model of the private `PolyMap::get_field_with_id`: as `getField`, but
panicking on a `TypeId` mismatch. -/
def getFieldWithId (s : PolyMap K) (k : K) (T : Ty) : OpResult (Option FieldDesc) :=
  match getField s k with
  | .fault e => .fault e
  | .ok none => .ok none
  | .ok (some f) => if f.id = T then .ok (some f) else .fault .typeMismatch

/-- Model of `PolyMap::contains_key_of`: `get_field(k).map(|f| f.id == id) == Some(true)`. -/
def contains_key_of (s : PolyMap K) (k : K) (T : Ty) : OpResult Bool :=
  match getField s k with
  | .fault e => .fault e
  | .ok r => .ok ((r.map (fun f => f.id == T)) == some true)

/-- Model of `PolyMap::get`: the value read back, or `none` for an absent
key. -/
def get (s : PolyMap K) (k : K) (T : Ty) : OpResult (Option Nat) :=
  match getFieldWithId s k T with
  | .fault e => .fault e
  | .ok none => .ok none
  | .ok (some f) => .ok (some (readVal s.data f.offset T))

/-- Model of `PolyMap::get_mut`: same lookup and read as `get` (the returned
mutable borrow itself performs no mutation). -/
def get_mut (s : PolyMap K) (k : K) (T : Ty) : OpResult (Option Nat) :=
  match getFieldWithId s k T with
  | .fault e => .fault e
  | .ok none => .ok none
  | .ok (some f) => .ok (some (readVal s.data f.offset T))

/-- Model of the private `PolyMap::allocate`: choose offset and insertion
index, grow the buffer with zero fill if `offset + size` exceeds its length
(`Vec::resize`), then record the index entry and the field descriptor. -/
def allocate (s : PolyMap K) (k : K) (T : Ty) : Nat × PolyMap K :=
  let sa := allocSizeAlign T
  let oi := allocPos sa.1 sa.2 s.fields
  let data :=
    if s.data.length < oi.1 + sa.1 then
      s.data ++ List.replicate (oi.1 + sa.1 - s.data.length) 0
    else s.data
  (oi.1,
   { data := data,
     field_map := mapInsert k oi.1 s.field_map,
     fields := s.fields.insertIdx oi.2 ⟨oi.1, sa.1, T, needsDrop T⟩ })

/-- Model of `PolyMap::insert`, returning the operation's result together
with the state at the point the operation finished or panicked. -/
def insert (s : PolyMap K) (k : K) (T : Ty) (v : Nat) :
    OpResult (Option Nat) × PolyMap K :=
  match getField s k with
  | .fault e => (.fault e, s)
  | .ok (some f) =>
    if f.id = T then
      (.ok (some (readVal s.data f.offset T)),
       { s with data := writeVal s.data f.offset T v })
    else (.fault .typeMismatch, s)
  | .ok none =>
    let r := allocate s k T
    (.ok none, { r.2 with data := writeVal r.2.data r.1 T v })

/-- Model of `PolyMap::remove`: look up the offset, locate the field by
binary search (panicking if absent), check the type (panicking on mismatch),
then delete the index entry and the field and read the value out. -/
def remove (s : PolyMap K) (k : K) (T : Ty) :
    OpResult (Option Nat) × PolyMap K :=
  match mapGet k s.field_map with
  | none => (.ok none, s)
  | some off =>
    match findFieldPos off s.fields with
    | none => (.fault .unwrapFail, s)
    | some p =>
      if p.2.id = T then
        (.ok (some (readVal s.data p.2.offset T)),
         { s with
             field_map := mapRemove k s.field_map,
             fields := s.fields.eraseIdx p.1 })
      else (.fault .typeMismatch, s)

/-- Offsets on which `clear`'s pop loop invokes a recorded drop function, in
pop order (the `Vec::pop` loop visits fields from last to first). -/
def dropCalls : List FieldDesc → List Nat
  | [] => []
  | f :: rest => (if f.drop then [f.offset] else []) ++ dropCalls rest

/-- Model of `PolyMap::clear`: pop every field, invoking recorded droppers;
the buffer and the key index are left untouched. Returns the new state and
the offsets passed to droppers, in invocation order. -/
def clear (s : PolyMap K) : PolyMap K × List Nat :=
  ({ s with fields := [] }, dropCalls s.fields.reverse)

end PolyMap

/-- Operations of the insert/remove fragment (claim about index/table
bijection). -/
inductive Op (K : Type) where
  | ins (k : K) (T : Ty) (v : Nat)
  | rem (k : K) (T : Ty)

/-- Operations of the full public mutating-and-reading surface. -/
inductive OpF (K : Type) where
  | ins (k : K) (T : Ty) (v : Nat)
  | rem (k : K) (T : Ty)
  | clr
  | getOp (k : K) (T : Ty)
  | getMutOp (k : K) (T : Ty)

section Runs

variable {K : Type} [DecidableEq K]

/-- State after one insert/remove operation (a panicking call leaves the
state as it was at the point of the panic). -/
def runOp (s : PolyMap K) : Op K → PolyMap K
  | .ins k T v => (s.insert k T v).2
  | .rem k T => (s.remove k T).2

/-- State after a sequence of insert/remove operations from the empty map. -/
def run (ops : List (Op K)) : PolyMap K := ops.foldl runOp (PolyMap.new K)

/-- State after one operation of the full surface; `get`/`get_mut` return
borrows and mutate nothing, `clear` keeps only its resulting state. -/
def runOpF (s : PolyMap K) : OpF K → PolyMap K
  | .ins k T v => (s.insert k T v).2
  | .rem k T => (s.remove k T).2
  | .clr => s.clear.1
  | .getOp _ _ => s
  | .getMutOp _ _ => s

/-- State after a sequence of operations of the full surface from the empty
map. -/
def runF (ops : List (OpF K)) : PolyMap K := ops.foldl runOpF (PolyMap.new K)

end Runs

/-- Adjacent pairs of a list, in order (the `ia.zip(ib)` of `allocate`,
described by the spec as "adjacent field pairs (a, b) in offset order"). -/
def adjacentPairs : List FieldDesc → List (FieldDesc × FieldDesc)
  | a :: b :: rest => (a, b) :: adjacentPairs (b :: rest)
  | _ => []

/-- Modelled from the spec's allocator description (§4.1 steps 1-3): offset 0
if the table is empty or `size` fits before the first field's offset;
otherwise the first candidate `align (a.offset + a.size) alignment` over
adjacent pairs `(a, b)` with `candidate + size ≤ b.offset`; otherwise
`align (last.offset + last.size) alignment` after the last field. -/
def specOffset (size alignment : Nat) (fields : List FieldDesc) : Nat :=
  match fields with
  | [] => 0
  | f0 :: rest =>
    if size ≤ f0.offset then 0
    else
      match (adjacentPairs (f0 :: rest)).find?
          (fun ab => align (ab.1.offset + ab.1.size) alignment + size ≤ ab.2.offset) with
      | some ab => align (ab.1.offset + ab.1.size) alignment
      | none =>
        let last := (f0 :: rest).getLast (List.cons_ne_nil f0 rest)
        align (last.offset + last.size) alignment

/-- Adjacency relation maintained on the field table: the byte range of `a`
ends at or before the offset of `b`. -/
def fldLe (a b : FieldDesc) : Prop := a.offset + a.size ≤ b.offset

instance : DecidableRel fldLe := fun a b => Nat.decLe _ _

instance : IsTrans FieldDesc fldLe :=
  ⟨fun a b c hab hbc => hab.trans ((Nat.le_add_right b.offset b.size).trans hbc)⟩

/-- Well-formedness of a field table: adjacent ranges do not overlap and
every field occupies at least one byte. -/
def FieldsWF (l : List FieldDesc) : Prop :=
  List.Chain' fldLe l ∧ ∀ f ∈ l, 1 ≤ f.size

/-- Bijection invariant between the Key Index and the Field Table: keys are
unique, and the multiset of indexed offsets equals the multiset of field
offsets. -/
def IdxBij {K : Type} (s : PolyMap K) : Prop :=
  (s.field_map.map Prod.fst).Nodup ∧
    (s.field_map.map Prod.snd).Perm (s.fields.map FieldDesc.offset)

/-- Example state of the crate's tests: one `u32` under key `"a"`. -/
def oneKeyMap : PolyMap String := ((PolyMap.new String).insert "a" Ty.u32 0xAAAAAAAA).2

/-- State of the `test_packing` example: `u8("a")`, `u16("b")`, `u8("c")`. -/
def packMapA : PolyMap String :=
  ((((PolyMap.new String).insert "a" Ty.u8 0xAA).2.insert "b" Ty.u16 0xBBBB).2.insert
    "c" Ty.u8 0xCC).2

/-- State of the second `test_packing` example: `u16`, `u32`, `u8`, `u8`. -/
def packMapB : PolyMap String :=
  (((((PolyMap.new String).insert "a" Ty.u16 0xAAAA).2.insert
    "b" Ty.u32 0xBBBBBBBB).2.insert "c" Ty.u8 0xCC).2.insert "d" Ty.u8 0xDD).2

/-- State of the `test_reuse` example: insert `u32("a")`, `u32("b")`, remove
`"a"`, insert `u32("c")`. -/
def reuseMap : PolyMap String :=
  (((((PolyMap.new String).insert "a" Ty.u32 0xAAAAAAAA).2.insert
    "b" Ty.u32 0xBBBBBBBB).2.remove "a" Ty.u32).2.insert "c" Ty.u32 0xCCCCCCCC).2

/-- State of the `test_zero_size` example: three distinct keys holding a
zero-sized value. -/
def zstMap : PolyMap String :=
  ((((PolyMap.new String).insert "a" Ty.zst 0).2.insert "b" Ty.zst 0).2.insert
    "c" Ty.zst 0).2

theorem align_le (x a : Nat) : x ≤ align x a := by
  unfold align
  split
  · exact Nat.le_refl x
  · exact Nat.le_add_right x _

theorem encodeBytes_length (v n : Nat) : (encodeBytes v n).length = n := by
  induction n generalizing v with
  | zero => rfl
  | succ m ih => simp [encodeBytes, ih]

theorem mod_pow256_succ (v m : Nat) :
    v % 256 ^ (m + 1) = v % 256 + 256 * (v / 256 % 256 ^ m) := by
  rw [pow_succ', ← Nat.mod_mul_right_div_self,
    show v % 256 = v % (256 * 256 ^ m) % 256 from
      (Nat.mod_mod_of_dvd v ⟨256 ^ m, rfl⟩).symm]
  exact (Nat.mod_add_div _ _).symm

theorem decode_encode (n v : Nat) : decodeBytes (encodeBytes v n) = v % 256 ^ n := by
  induction n generalizing v with
  | zero => simp [encodeBytes, decodeBytes, Nat.mod_one]
  | succ m ih =>
    show decodeBytes (v % 256 :: encodeBytes (v / 256) m) = v % 256 ^ (m + 1)
    rw [decodeBytes, ih, mod_pow256_succ, Nat.mod_mod_of_dvd v dvd_rfl]

theorem readVal_writeVal (data : List Nat) (off : Nat) (T : Ty) (v : Nat)
    (hlen : off + sizeOfTy T ≤ data.length) (hv : v < 256 ^ sizeOfTy T) :
    readVal (writeVal data off T v) off T = v := by
  unfold readVal writeVal
  have hofflen : (data.take off).length = off :=
    List.length_take_of_le (le_trans (Nat.le_add_right _ _) hlen)
  rw [List.append_assoc, List.drop_left' hofflen,
    List.take_left' (encodeBytes_length v (sizeOfTy T)), decode_encode]
  exact Nat.mod_eq_of_lt hv

theorem perm_insertIdx_le {α : Type} (x : α) :
    ∀ (idx : Nat) (l : List α), idx ≤ l.length → (l.insertIdx idx x).Perm (x :: l) := by
  intro idx
  induction idx with
  | zero => intro l _; rw [List.insertIdx_zero]
  | succ j ih =>
    intro l hle
    cases l with
    | nil => exact absurd hle (by simp)
    | cons a tl =>
      rw [List.insertIdx_succ_cons]
      exact (List.Perm.cons a (ih tl (Nat.le_of_succ_le_succ hle))).trans
        (List.Perm.swap x a tl)

theorem allocScan_idx (size al : Nat) :
    ∀ (l : List FieldDesc) (off idx : Nat),
      allocScan size al l = some (off, idx) → 1 ≤ idx ∧ idx ≤ l.length := by
  intro l
  induction l with
  | nil => intro off idx h; simp [allocScan] at h
  | cons a tl ih =>
    intro off idx h
    cases tl with
    | nil => simp [allocScan] at h
    | cons b rest =>
      rw [allocScan] at h
      split at h
      · simp only [Option.some.injEq, Prod.mk.injEq] at h
        refine ⟨h.2 ▸ Nat.le_refl 1, h.2 ▸ ?_⟩
        simp only [List.length_cons]
        omega
      · simp only [Option.map_eq_some'] at h
        obtain ⟨p, hp, hpe⟩ := h
        obtain ⟨h1, h2⟩ := ih p.1 p.2 (by rw [hp])
        obtain ⟨rfl, rfl⟩ := Prod.mk.injEq .. ▸ hpe
        simp only [List.length_cons] at h2 ⊢
        omega

theorem allocPos_idx (size al : Nat) (l : List FieldDesc) :
    (allocPos size al l).2 ≤ l.length := by
  cases l with
  | nil => simp [allocPos]
  | cons f0 rest =>
    rw [allocPos]
    split
    · simp
    · split
      · rename_i p hp
        exact (allocScan_idx size al (f0 :: rest) p.1 p.2 (by rw [hp])).2
      · exact Nat.le_refl _

theorem allocScan_chain (size al : Nat) (T : Ty) (d : Bool) :
    ∀ (l : List FieldDesc), List.Chain' fldLe l →
      ∀ off idx, allocScan size al l = some (off, idx) →
        List.Chain' fldLe (l.insertIdx idx ⟨off, size, T, d⟩) := by
  intro l
  induction l with
  | nil => intro _ off idx h; simp [allocScan] at h
  | cons a tl ih =>
    intro hc off idx h
    cases tl with
    | nil => simp [allocScan] at h
    | cons b rest =>
      obtain ⟨hab, hbc⟩ := List.chain'_cons.mp hc
      rw [allocScan] at h
      split at h
      · rename_i hfit
        simp only [Option.some.injEq, Prod.mk.injEq] at h
        obtain ⟨hoff, hidx⟩ := h
        subst hoff; subst hidx
        rw [List.insertIdx_succ_cons, List.insertIdx_zero]
        refine List.chain'_cons.mpr ⟨align_le _ _, List.chain'_cons.mpr ⟨hfit, hbc⟩⟩
      · simp only [Option.map_eq_some'] at h
        obtain ⟨p, hp, hpe⟩ := h
        obtain ⟨rfl, rfl⟩ := Prod.mk.injEq .. ▸ hpe
        have h1 := (allocScan_idx size al (b :: rest) p.1 p.2 (by rw [hp])).1
        obtain ⟨j, hj⟩ := Nat.exists_eq_add_of_le h1
        have ihx := ih hbc p.1 p.2 (by rw [hp])
        rw [List.insertIdx_succ_cons]
        rw [hj] at ihx ⊢
        rw [Nat.add_comm 1 j, List.insertIdx_succ_cons] at ihx ⊢
        exact List.chain'_cons.mpr ⟨hab, List.insertIdx_succ_cons .. ▸ ihx⟩

theorem allocPos_chain (size al : Nat) (T : Ty) (d : Bool) (l : List FieldDesc)
    (hc : List.Chain' fldLe l) :
    List.Chain' fldLe (l.insertIdx (allocPos size al l).2
      ⟨(allocPos size al l).1, size, T, d⟩) := by
  cases l with
  | nil => simp [allocPos, List.insertIdx_zero, List.chain'_singleton]
  | cons f0 rest =>
    rw [allocPos]
    split
    · rename_i hfit
      rw [List.insertIdx_zero]
      exact List.chain'_cons.mpr ⟨by simpa [fldLe] using hfit, hc⟩
    · split
      · rename_i p hp
        exact allocScan_chain size al T d (f0 :: rest) hc p.1 p.2 (by rw [hp])
      · rename_i hnone
        rw [List.insertIdx_length_self]
        refine List.chain'_append.mpr ⟨hc, List.chain'_singleton _, ?_⟩
        intro x hx y hy
        rw [List.getLast?_eq_getLast _ (List.cons_ne_nil f0 rest)] at hx
        simp only [Option.mem_def, Option.some.injEq] at hx
        simp only [List.head?_cons, Option.mem_def, Option.some.injEq] at hy
        subst hx; subst hy
        exact align_le _ _

section MapLemmas

variable {K : Type} [DecidableEq K]

theorem mapGet_none_notMem (k : K) :
    ∀ l : List (K × Nat), mapGet k l = none → k ∉ l.map Prod.fst := by
  intro l
  induction l with
  | nil => simp
  | cons p rest ih =>
    intro h
    rw [mapGet] at h
    split at h
    · exact absurd h (by simp)
    · rename_i hne
      simp only [List.map_cons, List.mem_cons]
      rintro (rfl | hmem)
      · exact hne rfl
      · exact ih h hmem

theorem mapInsert_of_get_none (k : K) (v : Nat) :
    ∀ l : List (K × Nat), mapGet k l = none → mapInsert k v l = l ++ [(k, v)] := by
  intro l
  induction l with
  | nil => intro _; rfl
  | cons p rest ih =>
    intro h
    rw [mapGet] at h
    split at h
    · exact absurd h (by simp)
    · rename_i hne
      rw [mapInsert, if_neg hne, ih h, List.cons_append]

theorem mapRemove_sublist (k : K) :
    ∀ l : List (K × Nat), (mapRemove k l).Sublist l := by
  intro l
  induction l with
  | nil => exact List.Sublist.refl []
  | cons p rest ih =>
    rw [mapRemove]
    split
    · exact List.sublist_cons_self p rest
    · exact List.Sublist.cons₂ p ih

theorem mapRemove_snd_perm (k : K) :
    ∀ (l : List (K × Nat)) (off : Nat), mapGet k l = some off →
      (l.map Prod.snd).Perm (off :: (mapRemove k l).map Prod.snd) := by
  intro l
  induction l with
  | nil => intro off h; simp [mapGet] at h
  | cons p rest ih =>
    intro off h
    rw [mapGet] at h
    rw [mapRemove]
    split at h
    · rename_i heq
      obtain rfl : p.2 = off := Option.some.injEq .. ▸ h
      rw [if_pos heq]
      simp
    · rename_i hne
      rw [if_neg hne]
      simp only [List.map_cons]
      exact (List.Perm.cons p.2 (ih off h)).trans (List.Perm.swap off p.2 _)

end MapLemmas

theorem findFieldPos_spec (off : Nat) :
    ∀ (l : List FieldDesc) (pos : Nat) (f : FieldDesc),
      findFieldPos off l = some (pos, f) →
      f.offset = off ∧
        (l.map FieldDesc.offset).Perm (off :: ((l.eraseIdx pos).map FieldDesc.offset)) := by
  intro l
  induction l with
  | nil => intro pos f h; simp [findFieldPos] at h
  | cons a rest ih =>
    intro pos f h
    rw [findFieldPos] at h
    split at h
    · rename_i heq
      simp only [Option.some.injEq, Prod.mk.injEq] at h
      obtain ⟨rfl, rfl⟩ := h
      exact ⟨heq, by rw [List.eraseIdx_zero, List.tail_cons, List.map_cons, heq]⟩
    · simp only [Option.map_eq_some'] at h
      obtain ⟨p, hp, hpe⟩ := h
      obtain ⟨rfl, rfl⟩ := Prod.mk.injEq .. ▸ hpe
      obtain ⟨hoff, hperm⟩ := ih p.1 p.2 (by rw [hp])
      refine ⟨hoff, ?_⟩
      rw [List.eraseIdx_cons_succ, List.map_cons, List.map_cons]
      exact (List.Perm.cons a.offset hperm).trans (List.Perm.swap off a.offset _)

section Preservation

variable {K : Type} [DecidableEq K]

theorem getField_ok_none (s : PolyMap K) (k : K)
    (h : s.getField k = .ok none) : mapGet k s.field_map = none := by
  unfold PolyMap.getField at h
  split at h
  · assumption
  · split at h <;> simp_all

theorem allocate_fields (s : PolyMap K) (k : K) (T : Ty) :
    (s.allocate k T).2.fields =
      s.fields.insertIdx (allocPos (allocSizeAlign T).1 (allocSizeAlign T).2 s.fields).2
        ⟨(allocPos (allocSizeAlign T).1 (allocSizeAlign T).2 s.fields).1,
          (allocSizeAlign T).1, T, needsDrop T⟩ := rfl

theorem allocate_field_map (s : PolyMap K) (k : K) (T : Ty) :
    (s.allocate k T).2.field_map =
      mapInsert k (allocPos (allocSizeAlign T).1 (allocSizeAlign T).2 s.fields).1
        s.field_map := rfl

theorem allocSizeAlign_pos (T : Ty) : 1 ≤ (allocSizeAlign T).1 := by
  cases T <;> decide

theorem allocate_wf (s : PolyMap K) (k : K) (T : Ty)
    (h : FieldsWF s.fields) : FieldsWF (s.allocate k T).2.fields := by
  rw [allocate_fields]
  constructor
  · exact allocPos_chain _ _ T (needsDrop T) s.fields h.1
  · intro f hf
    have hperm := perm_insertIdx_le
      (⟨(allocPos (allocSizeAlign T).1 (allocSizeAlign T).2 s.fields).1,
        (allocSizeAlign T).1, T, needsDrop T⟩ : FieldDesc)
      (allocPos (allocSizeAlign T).1 (allocSizeAlign T).2 s.fields).2 s.fields
      (allocPos_idx _ _ s.fields)
    rcases List.mem_cons.mp (hperm.mem_iff.mp hf) with rfl | hmem
    · exact allocSizeAlign_pos T
    · exact h.2 f hmem

theorem allocate_bij (s : PolyMap K) (k : K) (T : Ty)
    (hb : IdxBij s) (hget : mapGet k s.field_map = none) :
    IdxBij (s.allocate k T).2 := by
  have hidx := allocPos_idx (allocSizeAlign T).1 (allocSizeAlign T).2 s.fields
  have hperm := perm_insertIdx_le
    (⟨(allocPos (allocSizeAlign T).1 (allocSizeAlign T).2 s.fields).1,
      (allocSizeAlign T).1, T, needsDrop T⟩ : FieldDesc)
    (allocPos (allocSizeAlign T).1 (allocSizeAlign T).2 s.fields).2 s.fields hidx
  constructor
  · rw [allocate_field_map, mapInsert_of_get_none k _ _ hget, List.map_append]
    exact List.Nodup.append hb.1 (List.nodup_singleton k)
      (fun x hx hk => (mapGet_none_notMem k _ hget) (by
        simp only [List.map_cons, List.map_nil, List.mem_singleton] at hk
        exact hk ▸ hx))
  · rw [allocate_field_map, allocate_fields, mapInsert_of_get_none k _ _ hget,
      List.map_append]
    refine (List.perm_append_singleton _ _).trans ?_
    refine (List.Perm.cons _ hb.2).trans ?_
    exact (hperm.map FieldDesc.offset).symm

end Preservation

section OpPreservation

variable {K : Type} [DecidableEq K]

theorem insert_wf (s : PolyMap K) (k : K) (T : Ty) (v : Nat)
    (h : FieldsWF s.fields) : FieldsWF (s.insert k T v).2.fields := by
  cases hg : s.getField k with
  | fault e => simp only [PolyMap.insert, hg]; exact h
  | ok a =>
    cases a with
    | none => simp only [PolyMap.insert, hg]; exact allocate_wf s k T h
    | some f =>
      simp only [PolyMap.insert, hg]
      split <;> exact h

theorem insert_bij (s : PolyMap K) (k : K) (T : Ty) (v : Nat)
    (h : IdxBij s) : IdxBij (s.insert k T v).2 := by
  cases hg : s.getField k with
  | fault e => simp only [PolyMap.insert, hg]; exact h
  | ok a =>
    cases a with
    | none =>
      simp only [PolyMap.insert, hg]
      exact allocate_bij s k T h (getField_ok_none s k hg)
    | some f =>
      simp only [PolyMap.insert, hg]
      split <;> exact h

theorem remove_wf (s : PolyMap K) (k : K) (T : Ty)
    (h : FieldsWF s.fields) : FieldsWF (s.remove k T).2.fields := by
  cases hg : mapGet k s.field_map with
  | none => simp only [PolyMap.remove, hg]; exact h
  | some off =>
    cases hf : findFieldPos off s.fields with
    | none => simp only [PolyMap.remove, hg, hf]; exact h
    | some p =>
      simp only [PolyMap.remove, hg, hf]
      split
      · refine ⟨h.1.sublist (List.eraseIdx_sublist s.fields p.1), ?_⟩
        intro f hf2
        exact h.2 f ((List.eraseIdx_sublist s.fields p.1).mem hf2)
      · exact h

theorem remove_bij (s : PolyMap K) (k : K) (T : Ty)
    (h : IdxBij s) : IdxBij (s.remove k T).2 := by
  cases hg : mapGet k s.field_map with
  | none => simp only [PolyMap.remove, hg]; exact h
  | some off =>
    cases hf : findFieldPos off s.fields with
    | none => simp only [PolyMap.remove, hg, hf]; exact h
    | some p =>
      simp only [PolyMap.remove, hg, hf]
      split
      · constructor
        · exact h.1.sublist ((mapRemove_sublist k s.field_map).map Prod.fst)
        · have h1 := mapRemove_snd_perm k s.field_map off hg
          have h2 := (findFieldPos_spec off s.fields p.1 p.2 (by rw [hf])).2
          exact (h1.symm.trans (h.2.trans h2)).cons_inv
      · exact h

theorem clear_wf (s : PolyMap K) : FieldsWF s.clear.1.fields := by
  exact ⟨List.chain'_nil, by simp [PolyMap.clear]⟩

theorem runOp_pres (s : PolyMap K) (op : Op K)
    (h : FieldsWF s.fields ∧ IdxBij s) :
    FieldsWF (runOp s op).fields ∧ IdxBij (runOp s op) := by
  cases op with
  | ins k T v => exact ⟨insert_wf s k T v h.1, insert_bij s k T v h.2⟩
  | rem k T => exact ⟨remove_wf s k T h.1, remove_bij s k T h.2⟩

theorem run_pres (ops : List (Op K)) :
    FieldsWF (run ops).fields ∧ IdxBij (run ops) := by
  have hstep : ∀ (l : List (Op K)) (s : PolyMap K),
      FieldsWF s.fields ∧ IdxBij s →
      FieldsWF (l.foldl runOp s).fields ∧ IdxBij (l.foldl runOp s) := by
    intro l
    induction l with
    | nil => intro s h; exact h
    | cons op rest ih => intro s h; exact ih (runOp s op) (runOp_pres s op h)
  exact hstep ops (PolyMap.new K)
    ⟨⟨List.chain'_nil, by simp [PolyMap.new]⟩, ⟨List.nodup_nil, List.Perm.refl _⟩⟩

theorem runOpF_wf (s : PolyMap K) (op : OpF K)
    (h : FieldsWF s.fields) : FieldsWF (runOpF s op).fields := by
  cases op with
  | ins k T v => exact insert_wf s k T v h
  | rem k T => exact remove_wf s k T h
  | clr => exact clear_wf s
  | getOp k T => exact h
  | getMutOp k T => exact h

theorem runF_pres (ops : List (OpF K)) : FieldsWF (runF ops).fields := by
  have hstep : ∀ (l : List (OpF K)) (s : PolyMap K),
      FieldsWF s.fields → FieldsWF (l.foldl runOpF s).fields := by
    intro l
    induction l with
    | nil => intro s h; exact h
    | cons op rest ih => intro s h; exact ih (runOpF s op) (runOpF_wf s op h)
  exact hstep ops (PolyMap.new K) ⟨List.chain'_nil, by simp [PolyMap.new]⟩

end OpPreservation

/-- C1: after any sequence of `insert`/`remove` operations from the empty
map, the set of offsets stored in the Key Index (`field_map` values) equals
the set of offsets of the Field Table entries, the two sets have the same
cardinality, and `len()` equals that cardinality. -/
theorem c1_index_table_bijection {K : Type} [DecidableEq K] (ops : List (Op K)) :
    ((run ops).field_map.map Prod.snd).toFinset
        = ((run ops).fields.map FieldDesc.offset).toFinset ∧
    ((run ops).field_map.map Prod.snd).toFinset.card
        = ((run ops).fields.map FieldDesc.offset).toFinset.card ∧
    (run ops).len = ((run ops).fields.map FieldDesc.offset).toFinset.card := by
  obtain ⟨hwf, hbij⟩ := run_pres ops
  have hfin := List.toFinset_eq_of_perm _ _ hbij.2
  have hpw : List.Pairwise (fun a b : FieldDesc => a.offset < b.offset)
      (run ops).fields :=
    (List.chain'_iff_pairwise.mp hwf.1).imp_of_mem
      (fun ha _ hr => lt_of_lt_of_le (Nat.lt_add_of_pos_right (hwf.2 _ ha)) hr)
  have hnodup : ((run ops).fields.map FieldDesc.offset).Nodup :=
    List.Pairwise.nodup (List.pairwise_map.mpr hpw)
  refine ⟨hfin, by rw [hfin], ?_⟩
  rw [List.toFinset_card_of_nodup hnodup, List.length_map]
  rfl

/-- C2: every state reachable from the empty map by insert, remove, clear,
get, and get_mut has a Field Table sorted strictly ascending by offset with
pairwise disjoint byte ranges. -/
theorem c2_sorted_disjoint {K : Type} [DecidableEq K] (ops : List (OpF K)) :
    List.Pairwise (fun a b : FieldDesc => a.offset < b.offset) (runF ops).fields ∧
    List.Pairwise (fun a b : FieldDesc =>
      a.offset + a.size ≤ b.offset ∨ b.offset + b.size ≤ a.offset)
      (runF ops).fields := by
  have hwf := runF_pres ops
  have hpw := List.chain'_iff_pairwise.mp hwf.1
  exact ⟨hpw.imp_of_mem
      (fun ha _ hr => lt_of_lt_of_le (Nat.lt_add_of_pos_right (hwf.2 _ ha)) hr),
    hpw.imp (fun hr => Or.inl hr)⟩

theorem allocScan_eq_find (size al : Nat) :
    ∀ l : List FieldDesc,
      (allocScan size al l).map Prod.fst =
        ((adjacentPairs l).find? (fun ab =>
            align (ab.1.offset + ab.1.size) al + size ≤ ab.2.offset)).map
          (fun ab => align (ab.1.offset + ab.1.size) al) := by
  intro l
  induction l with
  | nil => rfl
  | cons a tl ih =>
    cases tl with
    | nil => rfl
    | cons b rest =>
      rw [allocScan, adjacentPairs]
      by_cases h : align (a.offset + a.size) al + size ≤ b.offset
      · rw [if_pos h, List.find?_cons_of_pos _ (by simpa using h)]
        rfl
      · rw [if_neg h, List.find?_cons_of_neg _ (by simpa using h)]
        rw [← ih, Option.map_map]
        cases allocScan size al (b :: rest) <;> rfl

/-- C3: the offset chosen by `allocate` for a genuinely new key equals the
spec's first-fit description (`specOffset`), and in the reuse example the
region vacated by removing `"a"` is reused by `"c"`: `data_size()` stays 8
and `get("c")` returns the inserted value. -/
theorem c3_first_fit_offset :
    (∀ (size alignment : Nat) (fields : List FieldDesc),
        (allocPos size alignment fields).1 = specOffset size alignment fields) ∧
    reuseMap.data_size = 8 ∧
    reuseMap.get "c" Ty.u32 = .ok (some 0xCCCCCCCC) := by
  refine ⟨?_, by decide, by decide⟩
  intro size al fields
  cases fields with
  | nil => rfl
  | cons f0 rest =>
    rw [allocPos, specOffset]
    split
    · rfl
    · have h := allocScan_eq_find size al (f0 :: rest)
      cases hs : allocScan size al (f0 :: rest) with
      | some p =>
        rw [hs] at h
        cases hf : (adjacentPairs (f0 :: rest)).find? (fun ab =>
            align (ab.1.offset + ab.1.size) al + size ≤ ab.2.offset) with
        | some ab => rw [hf] at h; simpa using h
        | none => rw [hf] at h; simp at h
      | none =>
        rw [hs] at h
        cases hf : (adjacentPairs (f0 :: rest)).find? (fun ab =>
            align (ab.1.offset + ab.1.size) al + size ≤ ab.2.offset) with
        | some ab => rw [hf] at h; simp at h
        | none => rfl

/-- C4 (evaluated at the failing input): after inserting one key and calling
`clear`, the Field Table is empty and every recorded dropper was invoked,
but the Key Index still contains the key — `contains_key "a"` returns
`true`, contradicting the claim that `clear()` empties the Key Index. -/
theorem c4_clear_retains_key_index :
    oneKeyMap.clear.1.fields = [] ∧
    oneKeyMap.clear.1.contains_key "a" = true ∧
    oneKeyMap.clear.1.field_map = [("a", 0)] := by decide

/-- C5 (counterexample): with key `"a"` stored as `u32`, the claim says
`contains_key_of::<u8>("a")` raises the type-mismatch fault; in fact it
returns `false`. -/
theorem c5_counterexample :
    oneKeyMap.contains_key_of "a" Ty.u8 = .ok false ∧
    oneKeyMap.contains_key_of "a" Ty.u8 ≠ .fault .typeMismatch := by decide

/-- C5 (amended): for a key present with recorded type `T` and a queried
type `U ≠ T`, `contains_key_of::<U>` returns `false`; it does not raise the
type-mismatch fault. -/
theorem c5_contains_key_of_mismatch_false {K : Type} [DecidableEq K]
    (s : PolyMap K) (k : K) (T U : Ty) (f : FieldDesc)
    (hf : s.getField k = .ok (some f)) (ht : f.id = T) (hu : U ≠ T) :
    s.contains_key_of k U = .ok false := by
  unfold PolyMap.contains_key_of
  rw [hf]
  have hne : (f.id == U) = false := beq_eq_false_iff_ne.mpr (by rw [ht]; exact hu.symm)
  simp [hne]

/-- Witness for the amended C5 at a concrete input. -/
theorem c5_witness : oneKeyMap.contains_key_of "a" Ty.u8 = .ok false :=
  c5_contains_key_of_mismatch_false oneKeyMap "a" Ty.u32 Ty.u8
    ⟨0, 4, Ty.u32, false⟩ (by decide) (by decide) (by decide)

/-- C6: whenever `insert` or `remove` raises the type-mismatch fault, the
state at the point of the fault equals the state before the call; `get` and
`get_mut` never mutate the state at all. -/
theorem c6_mismatch_no_mutation {K : Type} [DecidableEq K]
    (s : PolyMap K) (k : K) (T : Ty) (v : Nat) :
    ((s.insert k T v).1 = .fault .typeMismatch → (s.insert k T v).2 = s) ∧
    ((s.remove k T).1 = .fault .typeMismatch → (s.remove k T).2 = s) ∧
    runOpF s (.getOp k T) = s ∧ runOpF s (.getMutOp k T) = s := by
  refine ⟨?_, ?_, rfl, rfl⟩
  · intro h
    cases hg : s.getField k with
    | fault e => simp [PolyMap.insert, hg]
    | ok a =>
      cases a with
      | none => simp [PolyMap.insert, hg] at h
      | some f =>
        by_cases hid : f.id = T
        · simp [PolyMap.insert, hg, hid] at h
        · simp [PolyMap.insert, hg, hid]
  · intro h
    cases hg : mapGet k s.field_map with
    | none => simp [PolyMap.remove, hg]
    | some off =>
      cases hp : findFieldPos off s.fields with
      | none => simp [PolyMap.remove, hg, hp]
      | some p =>
        by_cases hid : p.2.id = T
        · simp [PolyMap.remove, hg, hp, hid] at h
        · simp [PolyMap.remove, hg, hp, hid]

/-- Witness for C6 at a concrete input: inserting or removing `"a"` as `u8`
while it holds a `u32` faults and leaves the map unchanged. -/
theorem c6_witness :
    (oneKeyMap.insert "a" Ty.u8 0).2 = oneKeyMap ∧
    (oneKeyMap.remove "a" Ty.u8).2 = oneKeyMap :=
  ⟨(c6_mismatch_no_mutation oneKeyMap "a" Ty.u8 0).1 (by decide),
   (c6_mismatch_no_mutation oneKeyMap "a" Ty.u8 0).2.1 (by decide)⟩

theorem getField_data_irrel {K : Type} [DecidableEq K]
    (s : PolyMap K) (d : List Nat) (k : K) :
    PolyMap.getField { s with data := d } k = s.getField k := rfl

/-- C7: inserting under a key already present with the same recorded type
returns the previously stored value, leaves the Field Table untouched, and a
subsequent `get` returns the new value; inserting under a key with no field
returns `None`. -/
theorem c7_replace_returns_old {K : Type} [DecidableEq K]
    (s : PolyMap K) (k : K) (T : Ty) (v : Nat) (f : FieldDesc)
    (hf : s.getField k = .ok (some f)) (hid : f.id = T)
    (hlen : f.offset + sizeOfTy T ≤ s.data.length) (hv : v < 256 ^ sizeOfTy T) :
    s.get k T = .ok (some (readVal s.data f.offset T)) ∧
    (s.insert k T v).1 = .ok (some (readVal s.data f.offset T)) ∧
    (s.insert k T v).2.get k T = .ok (some v) ∧
    (s.insert k T v).2.fields = s.fields ∧
    ∀ (k2 : K) (T2 : Ty) (v2 : Nat), s.getField k2 = .ok none →
      (s.insert k2 T2 v2).1 = .ok none := by
  refine ⟨?_, ?_, ?_, ?_, ?_⟩
  · unfold PolyMap.get PolyMap.getFieldWithId
    rw [hf]
    simp [hid]
  · simp [PolyMap.insert, hf, hid]
  · have hstate : (s.insert k T v).2 =
        { s with data := writeVal s.data f.offset T v } := by
      simp [PolyMap.insert, hf, hid]
    rw [hstate]
    have hfid : PolyMap.getFieldWithId { s with data := writeVal s.data f.offset T v }
        k T = .ok (some f) := by
      unfold PolyMap.getFieldWithId
      rw [getField_data_irrel, hf]
      show (if f.id = T then OpResult.ok (some f) else OpResult.fault Fault.typeMismatch)
          = OpResult.ok (some f)
      rw [if_pos hid]
    unfold PolyMap.get
    rw [hfid]
    show OpResult.ok (some (readVal (writeVal s.data f.offset T v) f.offset T))
        = OpResult.ok (some v)
    rw [readVal_writeVal s.data f.offset T v hlen hv]
  · simp [PolyMap.insert, hf, hid]
  · intro k2 T2 v2 h2
    simp [PolyMap.insert, h2]

/-- Witness for C7 at the `test_replace` input: `"a"` holds `0xAAAAAAAA_u32`;
inserting `0xBBBBBBBB_u32` returns the old value and `get` then reads the
new one. -/
theorem c7_witness :
    oneKeyMap.get "a" Ty.u32 = .ok (some (readVal oneKeyMap.data 0 Ty.u32)) ∧
    (oneKeyMap.insert "a" Ty.u32 0xBBBBBBBB).1
        = .ok (some (readVal oneKeyMap.data 0 Ty.u32)) ∧
    (oneKeyMap.insert "a" Ty.u32 0xBBBBBBBB).2.get "a" Ty.u32
        = .ok (some 0xBBBBBBBB) ∧
    (oneKeyMap.insert "a" Ty.u32 0xBBBBBBBB).2.fields = oneKeyMap.fields ∧
    ∀ (k2 : String) (T2 : Ty) (v2 : Nat), oneKeyMap.getField k2 = .ok none →
      (oneKeyMap.insert k2 T2 v2).1 = .ok none :=
  c7_replace_returns_old oneKeyMap "a" Ty.u32 0xBBBBBBBB
    ⟨0, 4, Ty.u32, false⟩ (by decide) (by decide) (by decide) (by decide)

/-- C8: the two packing examples: `u8, u16, u8` packs into 4 bytes (the
`u16` alignment-padded to offset 2, the second `u8` reusing byte 1), and
`u16, u32, u8, u8` packs into 8 bytes. -/
theorem c8_packing_examples :
    packMapA.data_size = 4 ∧ packMapB.data_size = 8 := by decide

/-- C9: zero-sized payload types are allocated with size 1 and alignment 1,
so three distinct keys holding a zero-sized type occupy three pairwise
distinct offsets (0, 1, 2) and the buffer is exactly 3 bytes. -/
theorem c9_zero_sized_distinct :
    (∀ T : Ty, sizeOfTy T = 0 → allocSizeAlign T = (1, 1)) ∧
    zstMap.len = 3 ∧
    (zstMap.fields.map FieldDesc.offset).Nodup ∧
    mapGet "a" zstMap.field_map = some 0 ∧
    mapGet "b" zstMap.field_map = some 1 ∧
    mapGet "c" zstMap.field_map = some 2 ∧
    zstMap.data_size = 3 := by
  refine ⟨?_, by decide, by decide, by decide, by decide, by decide, by decide⟩
  intro T h
  unfold allocSizeAlign
  rw [h]

/-- Witness for C9's zero-size rule at the concrete zero-sized type. -/
theorem c9_witness : sizeOfTy Ty.zst = 0 ∧ allocSizeAlign Ty.zst = (1, 1) :=
  ⟨rfl, c9_zero_sized_distinct.1 Ty.zst rfl⟩

/-- C10: if a key was present in the Key Index when `clear()` was called,
then afterwards `contains_key` still returns `true`, and `get`, `get_mut`,
`insert`, and `remove` on that key panic via the `.unwrap()` of a failed
binary search over the emptied field list — not `None` and not the
type-mismatch fault. -/
theorem c10_stale_index_after_clear {K : Type} [DecidableEq K]
    (s : PolyMap K) (k : K) (off : Nat) (T : Ty) (v : Nat)
    (h : mapGet k s.field_map = some off) :
    s.clear.1.contains_key k = true ∧
    s.clear.1.get k T = .fault .unwrapFail ∧
    s.clear.1.get_mut k T = .fault .unwrapFail ∧
    (s.clear.1.insert k T v).1 = .fault .unwrapFail ∧
    (s.clear.1.remove k T).1 = .fault .unwrapFail := by
  have hgf : s.clear.1.getField k = .fault .unwrapFail := by
    show PolyMap.getField { s with fields := [] } k = .fault .unwrapFail
    unfold PolyMap.getField
    rw [show ({ s with fields := [] } : PolyMap K).field_map = s.field_map from rfl,
      h]
    rfl
  refine ⟨?_, ?_, ?_, ?_, ?_⟩
  · show (mapGet k s.field_map).isSome = true
    rw [h]
    rfl
  · unfold PolyMap.get PolyMap.getFieldWithId
    rw [hgf]
  · unfold PolyMap.get_mut PolyMap.getFieldWithId
    rw [hgf]
  · simp [PolyMap.insert, hgf]
  · show (PolyMap.remove { s with fields := [] } k T).1 = .fault .unwrapFail
    unfold PolyMap.remove
    rw [show ({ s with fields := [] } : PolyMap K).field_map = s.field_map from rfl,
      h]
    rfl

/-- Witness for C10 at a concrete input: `"a"` inserted as `u32`, then
`clear()`. -/
theorem c10_witness :
    oneKeyMap.clear.1.contains_key "a" = true ∧
    oneKeyMap.clear.1.get "a" Ty.u32 = .fault .unwrapFail ∧
    oneKeyMap.clear.1.get_mut "a" Ty.u32 = .fault .unwrapFail ∧
    (oneKeyMap.clear.1.insert "a" Ty.u32 3).1 = .fault .unwrapFail ∧
    (oneKeyMap.clear.1.remove "a" Ty.u32).1 = .fault .unwrapFail :=
  c10_stale_index_after_clear oneKeyMap "a" 0 Ty.u32 3 (by decide)
